import Mathlib

/-!
Verification development for the PyBMF factorization engine.

The development shallowly embeds the three optimizers of the repository and
settles the frozen claims C1 to C10 against them.

Conventions of the embedding:
- Binary matrices of the greedy synthesizer (src/models/Hyper.py) are total
  functions from (row, column) to ℕ with explicit dimension parameters.
- Python floats that only ever hold exact small rationals are modelled
  exactly: the Hyper cost values are kept as unreduced fractions
  (numerator, denominator) over ℕ and compared by cross multiplication,
  which agrees with the exact value order (including the inf produced by a
  zero denominator) whenever the fraction is not 0/0; np.inf returned for an
  empty transaction is modelled by the value none.
- Real-valued matrices of the penalty optimizer (src/models/BinaryMFPenalty.py)
  are total functions to ℚ.
- Fallible Python code (IndexError on list indexing, ValueError on shape
  mismatch) returns Except or Option; while loops without a structural
  variant take a fuel parameter and report exhaustion as an error.
-/

namespace Hyper

/-- Binary matrices are modelled as total functions from (row, column) to ℕ. -/
abbrev HMat := ℕ → ℕ → ℕ

/-- Builds a matrix from a list of rows; entries outside the lists are 0. -/
def matOf (rows : List (List ℕ)) : HMat := fun i j => (rows.getD i []).getD j 0

/-- Sum of the entries of row i of X over the columns listed in I.
This is X[:, I].sum(axis=1) restricted to one row (Hyper.py lines 151-155). -/
def rowSumOn (I : List ℕ) (X : HMat) (i : ℕ) : ℕ := (I.map fun j => X i j).sum

/-- Hyper.cost (Hyper.py lines 178-184): (len(T) + len(I)) / X_uncovered[T, I].sum(),
kept as an unreduced fraction (numerator, denominator). -/
def cost (T I : List ℕ) (R : HMat) : ℕ × ℕ :=
  (T.length + I.length, (T.map fun t => rowSumOn I R t).sum)

/-- The rational value of a cost fraction. -/
def costVal (c : ℕ × ℕ) : ℚ := (c.1 : ℚ) / (c.2 : ℚ)

/-- Exact comparison of two cost fractions by cross multiplication; agrees
with the order of IEEE quotients whenever the fractions are not 0/0
(denominators of reachable costs are at least 1, numerators at least 1). -/
def costPairLE (a b : ℕ × ℕ) : Bool := decide (a.1 * b.2 ≤ b.1 * a.2)

/-- The greedy row-addition loop of Hyper.find_hyper (Hyper.py lines 167-174).
The acceptance test is the literal condition of line 170, cost_new <= cost_new,
comparing the new cost to itself. -/
def findLoop (I : List ℕ) (R : HMat) :
    List ℕ → ℕ × ℕ → List ℕ → List ℕ × Option (ℕ × ℕ)
  | T, costOld, [] => (T, some costOld)
  | T, costOld, t :: queue =>
    let costNew := cost (T ++ [t]) I R
    if costPairLE costNew costNew then findLoop I R (T ++ [t]) costNew queue
    else (T, some costOld)

/-- The queue of Hyper.find_hyper (Hyper.py lines 151-160): row indices sorted
by descending uncovered count (argsort then reversal, realized here as a stable
descending insertion sort), filtered to rows fully supported by the ground
truth with positive uncovered count. -/
def hyperQueue (I : List ℕ) (m : ℕ) (Xgt R : HMat) : List ℕ :=
  let covered := fun i => rowSumOn I Xgt i
  let uncovered := fun i => rowSumOn I R i
  let idx := List.insertionSort (fun a b => uncovered b ≤ uncovered a) (List.range m)
  idx.filter fun i => covered i == I.length && uncovered i != 0

/-- Hyper.find_hyper (Hyper.py lines 145-175). An empty queue yields the empty
transaction with infinite cost, modelled as none. -/
def find_hyper (I : List ℕ) (m : ℕ) (Xgt R : HMat) : List ℕ × Option (ℕ × ℕ) :=
  match hyperQueue I m Xgt R with
  | [] => ([], none)
  | t :: rest => findLoop I R [t] (cost [t] I R) rest

/-- Failure modes of the _fit loop: a Python IndexError from indexing or
popping an exhausted list, or exhaustion of the fuel given to the unbounded
re-sort loop. -/
inductive HErr where
  | index
  | fuel
deriving DecidableEq

/-- One slot of the three parallel lists T, I, c kept by Hyper; the Python
lists are always popped, sorted and written in lockstep, so they are modelled
as a single list of records. -/
structure HEntry where
  t : List ℕ
  iset : List ℕ
  c : Option (ℕ × ℕ)
deriving DecidableEq, Inhabited

/-- Cost comparison lifted to optional costs, none being plus infinity. -/
def costPLEb : Option (ℕ × ℕ) → Option (ℕ × ℕ) → Bool
  | _, none => true
  | none, some _ => false
  | some a, some b => costPairLE a b

/-- Ordering of entries by cost, used by sort_by_cost (Hyper.py lines 83-89). -/
def entryLE (a b : HEntry) : Prop := costPLEb a.c b.c = true

instance : DecidableRel entryLE :=
  fun a b => inferInstanceAs (Decidable (costPLEb a.c b.c = true))

/-- The mutable state of Hyper._fit: candidate entries, the residual
X_uncovered, and the accepted transactions and itemsets T_final, I_final. -/
structure HState where
  items : List HEntry
  R : HMat
  Tfin : List (List ℕ)
  Ifin : List (List ℕ)

instance : Inhabited HState := ⟨⟨[], fun _ _ => 0, [], []⟩⟩

/-- Recomputation of the head entry (Hyper.py line 99 and line 109):
T[0], c[0] = find_hyper(I[0], X_gt, X_uncovered). -/
def recomputeHead (m : ℕ) (Xgt R : HMat) (e : HEntry) : HEntry :=
  let p := find_hyper e.iset m Xgt R
  ⟨p.1, e.iset, p.2⟩

/-- The pop loop of Hyper._fit (lines 100-104): while T[0] == [], pop the
heads of T, I and c. Evaluating T[0] on an exhausted list raises IndexError. -/
def popLoop : List HEntry → Except HErr (List HEntry)
  | [] => .error .index
  | e :: es => if e.t = [] then popLoop es else .ok (e :: es)

/-- sort_by_cost (Hyper.py lines 83-89): the three lists are permuted into
ascending cost order (np.argsort realized as a stable insertion sort; tie
order is irrelevant to every claim below). -/
def sortItems (l : List HEntry) : List HEntry := List.insertionSort entryLE l

/-- The lazy re-evaluation loop of Hyper._fit (lines 106-110):
while c[0] > c[1] (which reads c[1] and raises IndexError when only one entry
remains): sort_by_cost, then recompute the head. The loop has no structural
bound, so it consumes one unit of fuel per iteration. -/
def selectLoop (m : ℕ) (Xgt R : HMat) : ℕ → List HEntry → Except HErr (List HEntry)
  | _, [] => .error .index
  | _, [_] => .error .index
  | fuel, e0 :: e1 :: rest =>
    if costPLEb e0.c e1.c then .ok (e0 :: e1 :: rest)
    else
      match fuel with
      | 0 => .error .fuel
      | f + 1 =>
        match sortItems (e0 :: e1 :: rest) with
        | [] => .error .index
        | h :: tl => selectLoop m Xgt R f (recomputeHead m Xgt R h :: tl)

/-- X_uncovered.sum() over the m by n grid. -/
def residSum (m n : ℕ) (R : HMat) : ℕ :=
  ((List.range m).map fun a => ((List.range n).map fun b => R a b).sum).sum

/-- The acceptance tail of one _fit iteration (Hyper.py lines 112-138): record
T[0] and I[0], zero the residual on the accepted rectangle (the boolean outer
product of the new U and V columns), break if the residual is empty, else
recompute the head against the new residual and re-sort. -/
def acceptPhase (m n : ℕ) (Xgt : HMat) (s : HState) :
    List HEntry → Except HErr (HState ⊕ HState)
  | [] => .error .index
  | a :: rest =>
    let Tf := s.Tfin ++ [a.t]
    let If := s.Ifin ++ [a.iset]
    let R' : HMat := fun p q => if p ∈ a.t ∧ q ∈ a.iset then 0 else s.R p q
    if residSum m n R' = 0 then .ok (.inr ⟨a :: rest, R', Tf, If⟩)
    else .ok (.inl ⟨sortItems (recomputeHead m Xgt R' a :: rest), R', Tf, If⟩)

/-- One iteration of the for loop of Hyper._fit (lines 98-138). The inr result
is the state after the break on an empty residual; inl continues. -/
def hyperStep (m n fuel : ℕ) (Xgt : HMat) (s : HState) : Except HErr (HState ⊕ HState) :=
  match s.items with
  | [] => .error .index
  | e :: es =>
    match popLoop (recomputeHead m Xgt s.R e :: es) with
    | .error err => .error err
    | .ok items1 =>
      match selectLoop m Xgt s.R fuel items1 with
      | .error err => .error err
      | .ok items2 => acceptPhase m n Xgt s items2

/-- The for loop of Hyper._fit, whose iteration count is fixed up front as
range(len(self.I)) (Hyper.py line 97). -/
def hyperRun (m n fuel : ℕ) (Xgt : HMat) : ℕ → HState → Except HErr HState
  | 0, s => .ok s
  | cnt + 1, s =>
    match hyperStep m n fuel Xgt s with
    | .error err => .error err
    | .ok (.inr s') => .ok s'
    | .ok (.inl s') => hyperRun m n fuel Xgt cnt s'

/-- Hyper._fit (Hyper.py lines 92-138) from the state produced by init_model:
the residual starts as a copy of X_train (line 94). -/
def hyperFit (m n fuel : ℕ) (Xgt : HMat) (items : List HEntry) : Except HErr HState :=
  hyperRun m n fuel Xgt items.length ⟨items, Xgt, [], []⟩

/-- Whether cell (a, b) lies in some accepted rectangle T x I. -/
def coveredB (ps : List (List ℕ × List ℕ)) (a b : ℕ) : Bool :=
  ps.any fun p => decide (a ∈ p.1) && decide (b ∈ p.2)

/-- A stored cost is well formed when it is not the fraction 0/0; every cost
the program ever stores has a positive numerator. -/
def entryPos (e : HEntry) : Prop :=
  match e.c with
  | none => True
  | some p => 0 < p.1 ∨ 0 < p.2

instance entryPosDecidable (e : HEntry) : Decidable (entryPos e) :=
  match h : e.c with
  | none => isTrue (by simp [entryPos, h])
  | some p => decidable_of_iff (0 < p.1 ∨ 0 < p.2) (by simp [entryPos, h])

theorem costPLEb_total (a b : Option (ℕ × ℕ)) : costPLEb a b = true ∨ costPLEb b a = true := by
  rcases a with _ | a <;> rcases b with _ | b <;> simp [costPLEb, costPairLE]
  exact Nat.le_total (a.1 * b.2) (b.1 * a.2)

theorem costPairLE_trans {a b c : ℕ × ℕ} (hb : 0 < b.1 ∨ 0 < b.2)
    (h1 : costPairLE a b = true) (h2 : costPairLE b c = true) : costPairLE a c = true := by
  simp only [costPairLE, decide_eq_true_eq] at h1 h2 ⊢
  rcases Nat.eq_zero_or_pos b.2 with hb2 | hb2
  · have hb1 : 0 < b.1 := by rcases hb with h | h; exact h; omega
    have hc2 : c.2 = 0 := by
      rw [hb2, Nat.mul_zero] at h2
      rcases Nat.mul_eq_zero.mp (Nat.eq_zero_of_le_zero h2) with h | h
      · omega
      · exact h
    rw [hc2, Nat.mul_zero]
    exact Nat.zero_le _
  · have h1' := Nat.mul_le_mul_right c.2 h1
    have h2' := Nat.mul_le_mul_right a.2 h2
    have hkey : a.1 * c.2 * b.2 ≤ c.1 * a.2 * b.2 := by
      calc a.1 * c.2 * b.2 = a.1 * b.2 * c.2 := by ring
        _ ≤ b.1 * a.2 * c.2 := h1'
        _ = b.1 * c.2 * a.2 := by ring
        _ ≤ c.1 * b.2 * a.2 := h2'
        _ = c.1 * a.2 * b.2 := by ring
    exact Nat.le_of_mul_le_mul_right hkey hb2

theorem costPLEb_trans {a b c : Option (ℕ × ℕ)} (hb : ∀ p, b = some p → 0 < p.1 ∨ 0 < p.2)
    (h1 : costPLEb a b = true) (h2 : costPLEb b c = true) : costPLEb a c = true := by
  rcases c with _ | c
  · cases a <;> rfl
  rcases b with _ | b
  · simp [costPLEb] at h2
  rcases a with _ | a
  · simp [costPLEb] at h1
  · exact costPairLE_trans (hb b rfl) h1 h2

theorem entryLE_trans {a b c : HEntry} (hb : entryPos b)
    (h1 : entryLE a b) (h2 : entryLE b c) : entryLE a c := by
  unfold entryLE at h1 h2 ⊢
  refine costPLEb_trans (fun p hp => ?_) h1 h2
  unfold entryPos at hb
  rw [hp] at hb
  exact hb

/-- Sortedness of orderedInsert, relative to well-formed costs: transitivity
of the cross-multiplication order is only available through entries whose
stored fraction is not 0/0. -/
theorem sorted_orderedInsert_pos (a : HEntry) :
    ∀ l : List HEntry, (∀ e ∈ l, entryPos e) → List.Sorted entryLE l →
      List.Sorted entryLE (List.orderedInsert entryLE a l)
  | [], _, _ => by simp [List.orderedInsert, List.Sorted]
  | b :: l, hpos, hs => by
    simp only [List.orderedInsert]
    by_cases hab : entryLE a b
    · rw [if_pos hab]
      rw [List.sorted_cons]
      constructor
      · intro x hx
        rcases List.mem_cons.mp hx with rfl | hx
        · exact hab
        · exact entryLE_trans (hpos b (List.mem_cons_self b l)) hab
            (List.rel_of_sorted_cons hs x hx)
      · exact hs
    · rw [if_neg hab]
      rw [List.sorted_cons]
      constructor
      · intro x hx
        rcases (List.mem_orderedInsert entryLE).mp hx with heq | hx
        · rw [heq]
          rcases costPLEb_total (a.c) (b.c) with h | h
          · exact absurd h hab
          · exact h
        · exact List.rel_of_sorted_cons hs x hx
      · exact sorted_orderedInsert_pos a l (fun e he => hpos e (List.mem_cons_of_mem b he))
          (List.sorted_cons.mp hs).2

theorem sorted_sortItems_pos :
    ∀ l : List HEntry, (∀ e ∈ l, entryPos e) → List.Sorted entryLE (sortItems l)
  | [], _ => by simp [sortItems, List.insertionSort, List.Sorted]
  | b :: l, hpos => by
    simp only [sortItems, List.insertionSort]
    refine sorted_orderedInsert_pos b (List.insertionSort entryLE l) ?_ ?_
    · intro e he
      exact hpos e (List.mem_cons_of_mem b ((List.mem_insertionSort entryLE).mp he))
    · exact sorted_sortItems_pos l (fun e he => hpos e (List.mem_cons_of_mem b he))

theorem findLoop_num_pos (I : List ℕ) (R : HMat) :
    ∀ (q T : List ℕ) (c0 : ℕ × ℕ), 0 < c0.1 →
      ∀ p, (findLoop I R T c0 q).2 = some p → 0 < p.1
  | [], T, c0, h0, p, hp => by
    simp only [findLoop] at hp
    cases hp
    exact h0
  | t :: q, T, c0, h0, p, hp => by
    simp only [findLoop] at hp
    by_cases hc : costPairLE (cost (T ++ [t]) I R) (cost (T ++ [t]) I R) = true
    · rw [if_pos hc] at hp
      refine findLoop_num_pos I R q (T ++ [t]) _ ?_ p hp
      simp [cost]
    · rw [if_neg hc] at hp
      cases hp
      exact h0

theorem find_hyper_pos (I : List ℕ) (m : ℕ) (Xgt R : HMat) :
    ∀ p, (find_hyper I m Xgt R).2 = some p → 0 < p.1 ∨ 0 < p.2 := by
  intro p hp
  unfold find_hyper at hp
  split at hp
  · simp at hp
  · left
    refine findLoop_num_pos I R _ _ _ ?_ p hp
    simp [cost]

theorem recomputeHead_pos (m : ℕ) (Xgt R : HMat) (e : HEntry) :
    entryPos (recomputeHead m Xgt R e) := by
  unfold recomputeHead entryPos
  dsimp only
  cases h2 : (find_hyper e.iset m Xgt R).2 with
  | none => trivial
  | some p => exact find_hyper_pos e.iset m Xgt R p h2

/-- Exit analysis of the lazy re-evaluation loop: started on a list whose head
was just recomputed and whose tail is cost-sorted, a successful exit returns a
list whose head is still a fresh find_hyper result and whose cost is at most
every remaining stored cost. -/
theorem selectLoop_ok_spec (m : ℕ) (Xgt R : HMat) :
    ∀ (fuel : ℕ) (items out : List HEntry),
      selectLoop m Xgt R fuel items = .ok out →
      (∀ x ∈ items, entryPos x) →
      (∃ a0 tl0, items = a0 :: tl0 ∧ (a0.t, a0.c) = find_hyper a0.iset m Xgt R) →
      List.Sorted entryLE items.tail →
      ∃ a tl, out = a :: tl ∧ (a.t, a.c) = find_hyper a.iset m Xgt R ∧
        ∀ x ∈ tl, costPLEb a.c x.c = true := by
  intro fuel
  induction fuel with
  | zero =>
    intro items out hok hpos hfresh hsorted
    match items with
    | [] => simp [selectLoop] at hok
    | [_] => simp [selectLoop] at hok
    | e0 :: e1 :: rest =>
      by_cases hc : costPLEb e0.c e1.c = true
      · simp only [selectLoop] at hok
        rw [if_pos hc] at hok
        cases hok
        obtain ⟨a0, tl0, heq, hfr⟩ := hfresh
        injection heq with h1 h2
        rw [← h1] at hfr
        refine ⟨e0, e1 :: rest, rfl, hfr, ?_⟩
        intro x hx
        rcases List.mem_cons.mp hx with heq1 | hx
        · rw [heq1]
          exact hc
        · have h1e : costPLEb e1.c x.c = true :=
            List.rel_of_sorted_cons hsorted x hx
          exact costPLEb_trans
            (fun p hp => by
              have := hpos e1 (by simp)
              unfold entryPos at this
              rw [hp] at this
              exact this)
            hc h1e
      · simp only [selectLoop] at hok
        rw [if_neg hc] at hok
        cases hok
  | succ f ih =>
    intro items out hok hpos hfresh hsorted
    match items with
    | [] => simp [selectLoop] at hok
    | [_] => simp [selectLoop] at hok
    | e0 :: e1 :: rest =>
      by_cases hc : costPLEb e0.c e1.c = true
      · simp only [selectLoop] at hok
        rw [if_pos hc] at hok
        cases hok
        obtain ⟨a0, tl0, heq, hfr⟩ := hfresh
        injection heq with h1 h2
        rw [← h1] at hfr
        refine ⟨e0, e1 :: rest, rfl, hfr, ?_⟩
        intro x hx
        rcases List.mem_cons.mp hx with heq1 | hx
        · rw [heq1]
          exact hc
        · have h1e : costPLEb e1.c x.c = true :=
            List.rel_of_sorted_cons hsorted x hx
          exact costPLEb_trans
            (fun p hp => by
              have := hpos e1 (by simp)
              unfold entryPos at this
              rw [hp] at this
              exact this)
            hc h1e
      · simp only [selectLoop] at hok
        rw [if_neg hc] at hok
        have hlen : (sortItems (e0 :: e1 :: rest)).length = rest.length + 2 := by
          rw [sortItems, List.length_insertionSort]
          rfl
        match hsrt : sortItems (e0 :: e1 :: rest) with
        | [] => rw [hsrt] at hlen; simp at hlen
        | h :: tl =>
          rw [hsrt] at hok
          have hmemsort : ∀ x ∈ h :: tl, x ∈ e0 :: e1 :: rest := by
            intro x hx
            have hx2 : x ∈ sortItems (e0 :: e1 :: rest) := by rw [hsrt]; exact hx
            exact (List.mem_insertionSort entryLE).mp hx2
          refine ih (recomputeHead m Xgt R h :: tl) out hok ?_ ?_ ?_
          · intro x hx
            rcases List.mem_cons.mp hx with heq1 | hx
            · rw [heq1]
              exact recomputeHead_pos m Xgt R h
            · exact hpos x (hmemsort x (List.mem_cons_of_mem h hx))
          · exact ⟨recomputeHead m Xgt R h, tl, rfl, by simp [recomputeHead]⟩
          · have hsorted2 : List.Sorted entryLE (h :: tl) := by
              rw [← hsrt]
              exact sorted_sortItems_pos (e0 :: e1 :: rest) hpos
            exact (List.sorted_cons.mp hsorted2).2

theorem popLoop_cons_of_ne (e : HEntry) (es : List HEntry) (h : e.t ≠ []) :
    popLoop (e :: es) = .ok (e :: es) := by
  unfold popLoop
  rw [if_neg h]

def XgtC1 : HMat := matOf [[1, 1, 1, 1], [1, 1, 1, 1], [1, 1, 1, 1]]

def XunC1 : HMat := matOf [[1, 1, 1, 1], [1, 1, 1, 0], [1, 0, 0, 0]]

/-- C1: the claim states that find_hyper keeps an added row only while the
cost does not increase and stops at the first strict cost increase. The code
is wrong: the acceptance test of Hyper.py line 170 reads cost_new <= cost_new,
which always holds, so every queued row is appended. At the itemset
I = [0,1,2,3] with the 3 by 4 all-ones ground truth and residual rows
[1,1,1,1], [1,1,1,0], [1,0,0,0], the queue is [0, 1, 2]; the cost after rows
[0, 1] is 6/7 and adding row 2 strictly increases it to 7/8, yet find_hyper
returns the transaction [0, 1, 2] with cost 7/8 instead of stopping at
[0, 1]. -/
theorem C1_find_hyper_accepts_strict_cost_increase :
    find_hyper [0, 1, 2, 3] 3 XgtC1 XunC1 = ([0, 1, 2], some (7, 8)) ∧
    cost [0, 1] [0, 1, 2, 3] XunC1 = (6, 7) ∧
    cost [0, 1, 2] [0, 1, 2, 3] XunC1 = (7, 8) ∧
    costVal (6, 7) < costVal (7, 8) := by
  refine ⟨by decide, by decide, by decide, ?_⟩
  norm_num [costVal]

def XgtC4 : HMat := matOf [[1, 0]]

/-- C4: the claim states that when every remaining itemset's recomputed
transaction is empty while the residual is still positive, the synthesizer
terminates normally with the partial factors. The code is wrong: on the 1 by 2
ground truth [[1, 0]] with the single candidate itemset [1] (stored
transaction [0], stored cost 2/1), the recomputed transaction of the head is
empty, the pop loop pops it, and the next evaluation of T[0] on the exhausted
list raises IndexError (modelled as the error value index), while the residual
still holds one positive entry. -/
theorem C4_itemset_exhaustion_raises_index_error :
    hyperFit 1 2 9 XgtC4 [⟨[0], [1], some (2, 1)⟩] = .error .index ∧
    residSum 1 2 XgtC4 = 1 := by
  exact ⟨rfl, by decide⟩

def XgtC5 : HMat := matOf [[1, 1, 0], [0, 1, 1]]

def RC5 : HMat := matOf [[0, 1, 0], [0, 0, 1]]

def sC5 : HState :=
  ⟨[⟨[0], [0], some (1, 1)⟩, ⟨[0, 1], [1], some (3, 2)⟩, ⟨[1], [2], some (2, 1)⟩],
    RC5, [], []⟩

def c5cexState : HState :=
  match hyperStep 2 3 9 XgtC5 sC5 with
  | .ok (.inl s) => s
  | _ => default

/-- C5 counterexample: an acceptance step in which the accepted transaction
was never recomputed against the current residual. The head itemset [0] is
dead (its recomputed transaction is empty), so the pop loop discards it; the
next entry, itemset [1] with the stale stored transaction [0, 1] and stale
cost 3/2, is accepted at once because 3/2 is at most the next cost 2/1 —
although recomputing itemset [1] against the current residual yields the
transaction [0] with cost 2/1, not [0, 1] with 3/2. This refutes the claim
that in every acceptance step the transaction and cost are recomputed against
the current residual before the pattern is accepted. -/
theorem C5_stale_acceptance_counterexample :
    hyperStep 2 3 9 XgtC5 sC5 = .ok (.inl c5cexState) ∧
    c5cexState.Tfin = [[0, 1]] ∧
    c5cexState.Ifin = [[1]] ∧
    find_hyper [1] 2 XgtC5 RC5 = ([0], some (2, 1)) := by
  exact ⟨rfl, by decide, by decide, by decide⟩

/-- C5 amended: in every acceptance step in which the transaction of the
cheapest itemset, recomputed at the start of the step against the current
residual, is non-empty (the pop branch does not fire), the accepted entry is a
fresh find_hyper result computed against the current residual, its cost is at
most every remaining stored cost (the tail being cost-sorted), and it is the
pair recorded into T_final and I_final; otherwise the list is re-sorted and
the new head recomputed before the check repeats — this is the selectLoop
structure the conclusion quantifies over. -/
theorem C5_acceptance_recompute_min_amended (m n fuel : ℕ) (Xgt : HMat) (s : HState)
    (e : HEntry) (es : List HEntry)
    (hitems : s.items = e :: es)
    (hfresh : (find_hyper e.iset m Xgt s.R).1 ≠ [])
    (hsorted : List.Sorted entryLE es)
    (hpos : ∀ x ∈ s.items, entryPos x)
    (res : HState ⊕ HState)
    (hrun : hyperStep m n fuel Xgt s = .ok res) :
    ∀ a tl, selectLoop m Xgt s.R fuel (recomputeHead m Xgt s.R e :: es) = .ok (a :: tl) →
      (a.t, a.c) = find_hyper a.iset m Xgt s.R ∧
      (∀ x ∈ tl, costPLEb a.c x.c = true) ∧
      (Sum.elim id id res).Tfin = s.Tfin ++ [a.t] ∧
      (Sum.elim id id res).Ifin = s.Ifin ++ [a.iset] := by
  intro a tl hsel
  have hpos1 : ∀ x ∈ recomputeHead m Xgt s.R e :: es, entryPos x := by
    intro x hx
    rcases List.mem_cons.mp hx with heq | hx
    · rw [heq]
      exact recomputeHead_pos m Xgt s.R e
    · refine hpos x ?_
      rw [hitems]
      exact List.mem_cons_of_mem e hx
  obtain ⟨a', tl', heq, hfr, hmin⟩ := selectLoop_ok_spec m Xgt s.R fuel _ (a :: tl) hsel hpos1
    ⟨recomputeHead m Xgt s.R e, es, rfl, by simp [recomputeHead]⟩ (by simpa using hsorted)
  injection heq with h1 h2
  rw [← h1] at hfr
  rw [← h1, ← h2] at hmin
  refine ⟨hfr, hmin, ?_⟩
  have hpop : popLoop (recomputeHead m Xgt s.R e :: es) =
      .ok (recomputeHead m Xgt s.R e :: es) := by
    refine popLoop_cons_of_ne _ _ ?_
    simpa [recomputeHead] using hfresh
  unfold hyperStep at hrun
  rw [hitems] at hrun
  dsimp only at hrun
  rw [hpop] at hrun
  dsimp only at hrun
  rw [hsel] at hrun
  dsimp only at hrun
  unfold acceptPhase at hrun
  dsimp only at hrun
  split at hrun
  · injection hrun with h
    rw [← h]
    exact ⟨rfl, rfl⟩
  · injection hrun with h
    rw [← h]
    exact ⟨rfl, rfl⟩

def XgtW : HMat := matOf [[1, 1], [1, 1]]

def eW : HEntry := ⟨[0, 1], [0], some (1, 1)⟩

def esW : List HEntry := [⟨[0, 1], [1], some (2, 1)⟩, ⟨[0, 1], [0, 1], some (3, 1)⟩]

def sW : HState := ⟨eW :: esW, XgtW, [], []⟩

def c5wres : HState ⊕ HState :=
  match hyperStep 2 2 9 XgtW sW with
  | .ok r => r
  | .error _ => .inl default

def aW : HEntry := ⟨[0, 1], [0], some (3, 2)⟩

/-- C5 witness: on the all-ones 2 by 2 matrix with candidate itemsets [0], [1]
and [0, 1], the first step accepts the freshly recomputed pair
(T, I) = ([0, 1], [0]) at cost 3/2, which is at most the remaining stored
costs 2/1 and 3/1. -/
theorem C5_acceptance_recompute_min_witness :
    (aW.t, aW.c) = find_hyper aW.iset 2 XgtW sW.R ∧
    costPLEb aW.c (some (2, 1)) = true ∧
    costPLEb aW.c (some (3, 1)) = true ∧
    (Sum.elim id id c5wres).Tfin = sW.Tfin ++ [aW.t] ∧
    (Sum.elim id id c5wres).Ifin = sW.Ifin ++ [aW.iset] := by
  obtain ⟨h1, h2, h3, h4⟩ := C5_acceptance_recompute_min_amended 2 2 9 XgtW sW eW esW rfl
    (by decide) (by decide) (by decide) c5wres rfl aW esW rfl
  refine ⟨h1, ?_, ?_, h3, h4⟩
  · exact h2 ⟨[0, 1], [1], some (2, 1)⟩ (by simp [esW])
  · exact h2 ⟨[0, 1], [0, 1], some (3, 1)⟩ (by simp [esW])

theorem zip_append_pair :
    ∀ (xs ys : List (List ℕ)) (x y : List ℕ), xs.length = ys.length →
      (xs ++ [x]).zip (ys ++ [y]) = xs.zip ys ++ [(x, y)]
  | [], [], x, y, _ => rfl
  | a :: xs, b :: ys, x, y, h => by
    simp only [List.cons_append, List.zip_cons_cons]
    rw [zip_append_pair xs ys x y (by simpa using h)]
  | [], b :: ys, x, y, h => by simp at h
  | a :: xs, [], x, y, h => by simp at h

theorem coveredB_append (ps qs : List (List ℕ × List ℕ)) (a b : ℕ) :
    coveredB (ps ++ qs) a b = (coveredB ps a b || coveredB qs a b) := by
  simp [coveredB, List.any_append]

/-- Invariant of the _fit loop: the residual equals the ground truth with
exactly the accepted rectangles zeroed, and the two accepted lists have equal
length. -/
def residInv (Xgt : HMat) (s : HState) : Prop :=
  s.Tfin.length = s.Ifin.length ∧
  ∀ p q, s.R p q = if coveredB (s.Tfin.zip s.Ifin) p q then 0 else Xgt p q

theorem residInv_accept (Xgt : HMat) (s : HState) (a : HEntry) (items' : List HEntry)
    (hinv : residInv Xgt s) :
    residInv Xgt ⟨items', fun p q => if p ∈ a.t ∧ q ∈ a.iset then 0 else s.R p q,
      s.Tfin ++ [a.t], s.Ifin ++ [a.iset]⟩ := by
  obtain ⟨hlen, hR⟩ := hinv
  refine ⟨by simp [hlen], ?_⟩
  intro p q
  dsimp only
  rw [zip_append_pair _ _ _ _ hlen, coveredB_append]
  by_cases hpq : p ∈ a.t ∧ q ∈ a.iset
  · rw [if_pos hpq]
    have hone : coveredB [(a.t, a.iset)] p q = true := by
      simp [coveredB, hpq.1, hpq.2]
    rw [hone]
    simp
  · rw [if_neg hpq, hR p q]
    have hone : coveredB [(a.t, a.iset)] p q = false := by
      simp only [coveredB, List.any_cons, List.any_nil, Bool.or_false]
      rw [Bool.and_eq_false_iff]
      rcases Decidable.not_and_iff_or_not.mp hpq with h | h
      · left
        simpa using h
      · right
        simpa using h
    rw [hone, Bool.or_false]

theorem acceptPhase_residInv (m n : ℕ) (Xgt : HMat) (s : HState) (items2 : List HEntry)
    (res : HState ⊕ HState) (hinv : residInv Xgt s)
    (hacc : acceptPhase m n Xgt s items2 = .ok res) :
    residInv Xgt (Sum.elim id id res) := by
  cases items2 with
  | nil => simp [acceptPhase] at hacc
  | cons a rest =>
    unfold acceptPhase at hacc
    dsimp only at hacc
    split at hacc
    · injection hacc with h
      rw [← h]
      exact residInv_accept Xgt s a _ hinv
    · injection hacc with h
      rw [← h]
      exact residInv_accept Xgt s a _ hinv

theorem hyperStep_residInv (m n fuel : ℕ) (Xgt : HMat) (s : HState) (res : HState ⊕ HState)
    (hinv : residInv Xgt s) (hstep : hyperStep m n fuel Xgt s = .ok res) :
    residInv Xgt (Sum.elim id id res) := by
  unfold hyperStep at hstep
  cases hitems : s.items with
  | nil =>
    rw [hitems] at hstep
    simp at hstep
  | cons e es =>
    rw [hitems] at hstep
    dsimp only at hstep
    cases hpop : popLoop (recomputeHead m Xgt s.R e :: es) with
    | error err =>
      rw [hpop] at hstep
      simp at hstep
    | ok items1 =>
      rw [hpop] at hstep
      dsimp only at hstep
      cases hsel : selectLoop m Xgt s.R fuel items1 with
      | error err =>
        rw [hsel] at hstep
        simp at hstep
      | ok items2 =>
        rw [hsel] at hstep
        dsimp only at hstep
        exact acceptPhase_residInv m n Xgt s items2 res hinv hstep

theorem hyperRun_residInv (m n fuel : ℕ) (Xgt : HMat) :
    ∀ (cnt : ℕ) (s s' : HState), residInv Xgt s →
      hyperRun m n fuel Xgt cnt s = .ok s' → residInv Xgt s'
  | 0, s, s', hinv, hrun => by
    unfold hyperRun at hrun
    injection hrun with h
    rw [← h]
    exact hinv
  | cnt + 1, s, s', hinv, hrun => by
    unfold hyperRun at hrun
    cases hstep : hyperStep m n fuel Xgt s with
    | error err =>
      rw [hstep] at hrun
      simp at hrun
    | ok r =>
      rw [hstep] at hrun
      cases r with
      | inr s1 =>
        dsimp only at hrun
        injection hrun with h
        rw [← h]
        simpa using hyperStep_residInv m n fuel Xgt s _ hinv hstep
      | inl s1 =>
        dsimp only at hrun
        exact hyperRun_residInv m n fuel Xgt cnt s1 s'
          (by simpa using hyperStep_residInv m n fuel Xgt s _ hinv hstep) hrun

/-- C8: throughout a run of Hyper._fit the residual starts as X and is mutated
only by zeroing the cells of accepted rectangles: on success the final
residual equals X with exactly the cells covered by the boolean products of
accepted column pairs set to 0, and is therefore pointwise at most X, so the
set of positive entries never grows. -/
theorem C8_residual_only_zeroed_by_accepted_patterns (m n fuel : ℕ) (Xgt : HMat)
    (items : List HEntry) (s' : HState)
    (hrun : hyperFit m n fuel Xgt items = .ok s') :
    (∀ p q, s'.R p q = if coveredB (s'.Tfin.zip s'.Ifin) p q then 0 else Xgt p q) ∧
    (∀ p q, s'.R p q ≤ Xgt p q) := by
  have hinit : residInv Xgt ⟨items, Xgt, [], []⟩ := by
    refine ⟨rfl, ?_⟩
    intro p q
    simp [coveredB]
  have hinv := hyperRun_residInv m n fuel Xgt items.length _ s' hinit hrun
  refine ⟨hinv.2, ?_⟩
  intro p q
  rw [hinv.2 p q]
  split
  · exact Nat.zero_le _
  · exact Nat.le_refl _

def itemsC8 : List HEntry :=
  [⟨[0, 1], [0], some (1, 1)⟩, ⟨[0, 1], [1], some (2, 1)⟩, ⟨[0, 1], [0, 1], some (3, 1)⟩]

def c8res : Except HErr HState := hyperFit 2 2 9 XgtW itemsC8

def c8state : HState :=
  match c8res with
  | .ok s => s
  | _ => default

/-- C8 witness: the all-ones 2 by 2 run completes with two accepted columns
and the characterization of the final residual holds at the sampled cells. -/
theorem C8_residual_only_zeroed_witness :
    c8res = .ok c8state ∧
    c8state.Tfin = [[0, 1], [0, 1]] ∧
    c8state.Ifin = [[0], [1]] ∧
    c8state.R 0 0 = (if coveredB (c8state.Tfin.zip c8state.Ifin) 0 0 then 0 else XgtW 0 0) ∧
    c8state.R 1 1 ≤ XgtW 1 1 := by
  have h := C8_residual_only_zeroed_by_accepted_patterns 2 2 9 XgtW itemsC8 c8state rfl
  exact ⟨rfl, by decide, by decide, h.1 0 0, h.2 1 1⟩

end Hyper

namespace AssoOpt

/-- Little-endian bits of n; the first argument is structural fuel kept at
least n so the recursion on halving terminates structurally. -/
def lsbBitsAux : ℕ → ℕ → List ℕ
  | _, 0 => []
  | 0, _ + 1 => []
  | f + 1, n + 1 => (n + 1) % 2 :: lsbBitsAux f ((n + 1) / 2)

/-- Digits of bin(n)[2:], most significant first; bin(0)[2:] is the
one-character string 0, hence the singleton [0]. -/
def natBits (n : ℕ) : List ℕ := if n = 0 then [0] else (lsbBitsAux n n).reverse

/-- AssoOpt.int2bin (AssoOpt.py lines 90-94): bin(i)[2:].zfill(bits) as a bit
list, MSB first. zfill pads on the left but never truncates, so the result is
longer than bits whenever the binary representation is. -/
def int2bin (i bits : ℕ) : List ℕ :=
  let s := natBits i
  List.replicate (bits - s.length) 0 ++ s

/-- Modelled from the spec: boolean product of a row vector with V.T, the
ordinary dot product followed by thresholding at 0 (spec section 4.1); the
utils.matmul source is not under src/. Returns none when the inner dimensions
disagree, where numpy raises ValueError. -/
def boolProdRow (u : List ℕ) (V : List (List ℕ)) (k : ℕ) : Option (List ℕ) :=
  if u.length = k then
    some (V.map fun vrow => if 0 < (List.zipWith (fun a b => a * b) u vrow).sum then 1 else 0)
  else none

/-- Modelled from the spec: coverage score, reward for covered ground-truth
positive cells minus penalty for predicted cells that are not ground-truth
positive, both denominators floored at 1 (spec section 4.1); the utils.cover
source is not under src/. -/
def cover (gt pd : List ℕ) (w : ℚ) : ℚ :=
  let tp := ((List.zip gt pd).filter fun g => g.1 != 0 && g.2 != 0).length
  let fp := ((List.zip gt pd).filter fun g => g.1 == 0 && g.2 != 0).length
  let pos := (gt.filter fun g => g != 0).length
  (1 - w) * (tp : ℚ) / ((max 1 pos : ℕ) : ℚ) - w * (fp : ℚ) / ((max 1 gt.length : ℕ) : ℚ)

/-- The score of candidate j in the loop of AssoOpt.set_optimal_row
(AssoOpt.py lines 82-85); none when the product raises. -/
def rowScore (V : List (List ℕ)) (k : ℕ) (x : List ℕ) (w : ℚ) (j : ℕ) : Option ℚ :=
  (boolProdRow (int2bin j k) V k).map fun pd => cover x pd w

/-- Total view of the candidate score, used to state the argmax property; it
agrees with rowScore whenever the dimensions match. -/
def candidateScore (V : List (List ℕ)) (k : ℕ) (x : List ℕ) (w : ℚ) (j : ℕ) : ℚ :=
  (rowScore V k x w j).getD 0

/-- Sequential collection of the scores array: the first raising candidate
aborts the whole row search, as the Python exception would. -/
def allSome : List (Option ℚ) → Option (List ℚ)
  | [] => some []
  | none :: _ => none
  | some q :: rest => (allSome rest).map fun l => q :: l

/-- Model of the np.argmax scan: running maximum replaced only on strict
improvement, so the first occurrence of the maximum wins. -/
def argmaxAux : ℚ → ℕ → ℕ → List ℚ → ℕ
  | _, best, _, [] => best
  | bv, best, i, v :: rest =>
    if bv < v then argmaxAux v i (i + 1) rest else argmaxAux bv best (i + 1) rest

def argmaxFirst : List ℚ → ℕ
  | [] => 0
  | v :: rest => argmaxAux v 0 1 rest

/-- AssoOpt.set_optimal_row (AssoOpt.py lines 76-87): score all 2^k candidate
bit-vectors in increasing encoding order, then return np.argmax of the score
array; none models the ValueError raised inside the loop. -/
def set_optimal_row (k : ℕ) (V : List (List ℕ)) (x : List ℕ) (w : ℚ) : Option ℕ :=
  (allSome ((List.range (2 ^ k)).map (rowScore V k x w))).map argmaxFirst

theorem lsbBitsAux_length :
    ∀ (c f n : ℕ), n ≤ f → n < 2 ^ c → (lsbBitsAux f n).length ≤ c := by
  intro c
  induction c with
  | zero =>
    intro f n hnf hn
    interval_cases n
    cases f <;> simp [lsbBitsAux]
  | succ c ih =>
    intro f n hnf hn
    match f, n with
    | _, 0 => simp [lsbBitsAux]
    | 0, n + 1 => omega
    | f + 1, n + 1 =>
      simp only [lsbBitsAux, List.length_cons]
      have h1 : (n + 1) / 2 ≤ f := by omega
      have h2 : (n + 1) / 2 < 2 ^ c := by
        have hp : 2 ^ (c + 1) = 2 ^ c * 2 := by ring
        omega
      have := ih f ((n + 1) / 2) h1 h2
      omega

theorem natBits_length_le {j k : ℕ} (hk : 1 ≤ k) (hj : j < 2 ^ k) :
    (natBits j).length ≤ k := by
  unfold natBits
  by_cases h0 : j = 0
  · rw [if_pos h0]
    simpa using hk
  · rw [if_neg h0]
    rw [List.length_reverse]
    exact lsbBitsAux_length k j j (Nat.le_refl j) hj

theorem int2bin_length {j k : ℕ} (hk : 1 ≤ k) (hj : j < 2 ^ k) :
    (int2bin j k).length = k := by
  unfold int2bin
  have := natBits_length_le hk hj
  simp only [List.length_append, List.length_replicate]
  omega

theorem allSome_map_eq (g : ℕ → ℚ) :
    ∀ (l : List ℕ) (f : ℕ → Option ℚ), (∀ a ∈ l, f a = some (g a)) →
      allSome (l.map f) = some (l.map g)
  | [], _, _ => rfl
  | a :: l, f, h => by
    simp only [List.map_cons]
    rw [h a (List.mem_cons_self a l)]
    simp only [allSome]
    rw [allSome_map_eq g l f fun b hb => h b (List.mem_cons_of_mem a hb)]
    rfl

theorem rowScore_eq_some {k : ℕ} (V : List (List ℕ)) (x : List ℕ) (w : ℚ) {j : ℕ}
    (hk : 1 ≤ k) (hj : j < 2 ^ k) :
    rowScore V k x w j = some (candidateScore V k x w j) := by
  unfold candidateScore rowScore boolProdRow
  rw [if_pos (int2bin_length hk hj)]
  rfl

theorem argmaxAux_spec :
    ∀ (rest : List ℚ) (bv : ℚ) (best i : ℕ),
      (argmaxAux bv best i rest = best ∧ ∀ v ∈ rest, v ≤ bv) ∨
      (∃ j, j < rest.length ∧ argmaxAux bv best i rest = i + j ∧ bv < rest.getD j 0 ∧
        (∀ v ∈ rest, v ≤ rest.getD j 0) ∧
        ∀ j' < j, rest.getD j' 0 < rest.getD j 0)
  | [], bv, best, i => by
    left
    exact ⟨rfl, by simp⟩
  | v :: rest, bv, best, i => by
    by_cases hv : bv < v
    · rw [show argmaxAux bv best i (v :: rest) = argmaxAux v i (i + 1) rest by
        simp [argmaxAux, hv]]
      rcases argmaxAux_spec rest v i (i + 1) with ⟨heq, hle⟩ | ⟨j, hj, heq, hlt, hle, hstrict⟩
      · right
        refine ⟨0, by simp, by simpa using heq, by simpa using hv, ?_, by omega⟩
        intro x hx
        rcases List.mem_cons.mp hx with h | h
        · simp [h]
        · simpa using hle x h
      · right
        refine ⟨j + 1, by simpa using hj, by rw [heq]; omega, ?_, ?_, ?_⟩
        · simp only [List.getD_cons_succ]
          exact lt_trans hv hlt
        · intro x hx
          simp only [List.getD_cons_succ]
          rcases List.mem_cons.mp hx with h | h
          · rw [h]
            exact le_of_lt hlt
          · exact hle x h
        · intro j' hj'
          match j' with
          | 0 =>
            simp only [List.getD_cons_zero, List.getD_cons_succ]
            exact hlt
          | j' + 1 =>
            simp only [List.getD_cons_succ]
            exact hstrict j' (by omega)
    · rw [show argmaxAux bv best i (v :: rest) = argmaxAux bv best (i + 1) rest by
        simp [argmaxAux, hv]]
      rcases argmaxAux_spec rest bv best (i + 1) with ⟨heq, hle⟩ | ⟨j, hj, heq, hlt, hle, hstrict⟩
      · left
        refine ⟨heq, ?_⟩
        intro x hx
        rcases List.mem_cons.mp hx with h | h
        · rw [h]
          exact le_of_not_lt hv
        · exact hle x h
      · right
        refine ⟨j + 1, by simpa using hj, by rw [heq]; omega, ?_, ?_, ?_⟩
        · simp only [List.getD_cons_succ]
          exact hlt
        · intro x hx
          simp only [List.getD_cons_succ]
          rcases List.mem_cons.mp hx with h | h
          · rw [h]
            exact le_of_lt (lt_of_le_of_lt (le_of_not_lt hv) hlt)
          · exact hle x h
        · intro j' hj'
          match j' with
          | 0 =>
            simp only [List.getD_cons_zero, List.getD_cons_succ]
            exact lt_of_le_of_lt (le_of_not_lt hv) hlt
          | j' + 1 =>
            simp only [List.getD_cons_succ]
            exact hstrict j' (by omega)

theorem getD_mem_of_lt {l : List ℚ} {j : ℕ} (h : j < l.length) : l.getD j 0 ∈ l := by
  rw [List.getD_eq_getElem l 0 h]
  exact List.getElem_mem h

theorem argmaxFirst_spec (l : List ℚ) (hl : l ≠ []) :
    argmaxFirst l < l.length ∧
    (∀ j < l.length, l.getD j 0 ≤ l.getD (argmaxFirst l) 0) ∧
    (∀ j < argmaxFirst l, l.getD j 0 < l.getD (argmaxFirst l) 0) := by
  match l with
  | [] => exact absurd rfl hl
  | v :: rest =>
    have hunfold : argmaxFirst (v :: rest) = argmaxAux v 0 1 rest := rfl
    rcases argmaxAux_spec rest v 0 1 with ⟨heq, hle⟩ | ⟨j, hj, heq, hlt, hle, hstrict⟩
    · rw [hunfold, heq]
      refine ⟨by simp, ?_, by omega⟩
      intro j' hjlen
      match j' with
      | 0 => exact le_refl _
      | j' + 1 =>
        simp only [List.getD_cons_succ, List.getD_cons_zero]
        refine hle _ (getD_mem_of_lt ?_)
        simpa using hjlen
    · have heq' : argmaxFirst (v :: rest) = j + 1 := by
        rw [hunfold, heq]
        omega
      rw [heq']
      refine ⟨by simpa using hj, ?_, ?_⟩
      · intro j' hjlen
        match j' with
        | 0 =>
          simp only [List.getD_cons_zero, List.getD_cons_succ]
          exact le_of_lt hlt
        | j' + 1 =>
          simp only [List.getD_cons_succ]
          refine hle _ (getD_mem_of_lt ?_)
          simpa using hjlen
      · intro j' hj'
        match j' with
        | 0 =>
          simp only [List.getD_cons_zero, List.getD_cons_succ]
          exact hlt
        | j' + 1 =>
          simp only [List.getD_cons_succ]
          exact hstrict j' (by omega)

/-- C2: for k at least 1, set_optimal_row scores all 2^k candidate bit-vectors
in increasing order of their integer encoding and returns the index of a
candidate attaining the maximum score; every candidate with a smaller encoding
than the returned one scores strictly less, so ties are broken by the lowest
encoding, the first in enumeration order. -/
theorem C2_exhaustive_argmax_first_tie (k : ℕ) (V : List (List ℕ)) (x : List ℕ) (w : ℚ)
    (hk : 1 ≤ k) :
    ∃ idx, set_optimal_row k V x w = some idx ∧ idx < 2 ^ k ∧
      (∀ j < 2 ^ k, candidateScore V k x w j ≤ candidateScore V k x w idx) ∧
      ∀ j < idx, candidateScore V k x w j < candidateScore V k x w idx := by
  have hall : allSome ((List.range (2 ^ k)).map (rowScore V k x w)) =
      some ((List.range (2 ^ k)).map (candidateScore V k x w)) := by
    refine allSome_map_eq _ _ _ ?_
    intro j hj
    exact rowScore_eq_some V x w hk (List.mem_range.mp hj)
  have hset : set_optimal_row k V x w =
      some (argmaxFirst ((List.range (2 ^ k)).map (candidateScore V k x w))) := by
    unfold set_optimal_row
    rw [hall]
    rfl
  have hpow : 0 < 2 ^ k := pow_pos (by norm_num) k
  have hLlen : ((List.range (2 ^ k)).map (candidateScore V k x w)).length = 2 ^ k := by
    simp
  have hLne : (List.range (2 ^ k)).map (candidateScore V k x w) ≠ [] := by
    intro h
    rw [h] at hLlen
    simp at hLlen
    omega
  obtain ⟨hbound, hmax, hfirst⟩ :=
    argmaxFirst_spec ((List.range (2 ^ k)).map (candidateScore V k x w)) hLne
  rw [hLlen] at hbound
  have hgetD : ∀ j < 2 ^ k,
      ((List.range (2 ^ k)).map (candidateScore V k x w)).getD j 0 =
        candidateScore V k x w j := by
    intro j hj
    rw [List.getD_eq_getElem _ 0 (by simpa using hj)]
    simp
  refine ⟨_, hset, hbound, ?_, ?_⟩
  · intro j hj
    have h := hmax j (by simpa using hj)
    rw [hgetD j hj, hgetD _ hbound] at h
    exact h
  · intro j hj
    have h := hfirst j hj
    rw [hgetD j (lt_trans hj hbound), hgetD _ hbound] at h
    exact h

theorem C2_eval : set_optimal_row 1 [[1]] [1] (1 / 2) = some 1 := by
  norm_num [set_optimal_row, allSome, rowScore, boolProdRow, int2bin, natBits, lsbBitsAux,
    cover, argmaxFirst, argmaxAux, List.range_succ]

/-- C2 witness: with k = 1, V = [[1]] and the row x = [1], the refiner picks
candidate 1 (the vector [1]), whose score strictly beats candidate 0. -/
theorem C2_exhaustive_argmax_witness :
    set_optimal_row 1 [[1]] [1] (1 / 2) = some 1 ∧
    candidateScore [[1]] 1 [1] (1 / 2) 0 ≤ candidateScore [[1]] 1 [1] (1 / 2) 1 ∧
    candidateScore [[1]] 1 [1] (1 / 2) 0 < candidateScore [[1]] 1 [1] (1 / 2) 1 := by
  obtain ⟨idx, h1, h2, h3, h4⟩ := C2_exhaustive_argmax_first_tie 1 [[1]] [1] (1 / 2) (le_refl 1)
  have heval : set_optimal_row 1 [[1]] [1] (1 / 2) = some 1 := C2_eval
  rw [h1] at heval
  injection heval with hidx
  subst hidx
  exact ⟨h1, h3 0 (by norm_num), h4 0 (by norm_num)⟩

/-- C9: the claim states that k = 0 degenerates to the single empty bit-vector
and must not raise. The code is wrong: int2bin(0, 0) is the length-1 vector
[0] because bin(0)[2:] is the one-character string 0 and zfill never shortens
it, so the single candidate of the k = 0 search is a 1 by 1 matrix whose
product with the 0-column V.T has mismatched inner dimensions and raises;
set_optimal_row therefore fails (returns none) on every row. -/
theorem C9_k0_raises_dimension_mismatch :
    int2bin 0 0 = [0] ∧
    (int2bin 0 0).length = 1 ∧
    boolProdRow (int2bin 0 0) [[]] 0 = none ∧
    set_optimal_row 0 [[]] [1] (1 / 2) = none := ⟨rfl, rfl, rfl, rfl⟩

end AssoOpt

namespace BMFP

/-- Dense real matrices of BinaryMFPenalty are modelled as total functions to
ℚ; the dimensions m, n, k enter through the summation ranges. -/
abbrev Mat := ℕ → ℕ → ℚ

/-- utils.multiply: elementwise product. -/
def multiply (A B : Mat) : Mat := fun i j => A i j * B i j

/-- utils.power: elementwise power. -/
def power (A : Mat) (p : ℕ) : Mat := fun i j => A i j ^ p

def transpose (A : Mat) : Mat := fun i j => A j i

def madd (A B : Mat) : Mat := fun i j => A i j + B i j

def msub (A B : Mat) : Mat := fun i j => A i j - B i j

def smul (c : ℚ) (A : Mat) : Mat := fun i j => c * A i j

/-- Matrix product with inner dimension d. -/
def mmul (d : ℕ) (A B : Mat) : Mat := fun i j => ∑ c ∈ Finset.range d, A i c * B c j

def mdiv (A B : Mat) : Mat := fun i j => A i j / B i j

/-- np.finfo(np.float64).eps. -/
def eps64 : ℚ := 1 / 2 ^ 52

/-- The masked assignment denom[denom == 0] = eps of BinaryMFPenalty.update
(lines 114 and 123). -/
def floorZeros (A : Mat) : Mat := fun i j => if A i j = 0 then eps64 else A i j

/-- Numerator of the V update (BinaryMFPenalty.py lines 109-110):
multiply(W, X).T @ U + 3 reg V^2. -/
def updateV_num (m : ℕ) (W X U V : Mat) (reg : ℚ) : Mat :=
  madd (mmul m (transpose (multiply W X)) U) (smul (3 * reg) (power V 2))

/-- Denominator of the V update (lines 112-113):
multiply(W, U @ V.T).T @ U + 2 reg V^3 + reg V. -/
def updateV_denom (m k : ℕ) (W X U V : Mat) (reg : ℚ) : Mat :=
  madd (madd (mmul m (transpose (multiply W (mmul k U (transpose V)))) U)
    (smul (2 * reg) (power V 3))) (smul reg V)

/-- The V update (line 116): V = multiply(V, num / denom) with the zero
entries of denom floored to machine epsilon first. -/
def updateV (m k : ℕ) (W X U V : Mat) (reg : ℚ) : Mat :=
  multiply V (mdiv (updateV_num m W X U V reg) (floorZeros (updateV_denom m k W X U V reg)))

/-- Numerator of the U update (lines 119-120). -/
def updateU_num (n : ℕ) (W X U V : Mat) (reg : ℚ) : Mat :=
  madd (mmul n (multiply W X) V) (smul (3 * reg) (power U 2))

/-- Denominator of the U update (lines 121-122). -/
def updateU_denom (n k : ℕ) (W X U V : Mat) (reg : ℚ) : Mat :=
  madd (madd (mmul n (multiply W (mmul k U (transpose V))) V)
    (smul (2 * reg) (power U 3))) (smul reg U)

/-- The U update (line 125). -/
def updateU (n k : ℕ) (W X U V : Mat) (reg : ℚ) : Mat :=
  multiply U (mdiv (updateU_num n W X U V reg) (floorZeros (updateU_denom n k W X U V reg)))

/-- BinaryMFPenalty.update (lines 103-125): V is updated first and the U
update uses the fresh V, while the U factors in its own update are the old
ones. -/
def update (m n k : ℕ) (W X U V : Mat) (reg : ℚ) : Mat × Mat :=
  let Vnew := updateV m k W X U V reg
  let Unew := updateU n k W X U Vnew reg
  (Unew, Vnew)

def matSum (m n : ℕ) (A : Mat) : ℚ := ∑ i ∈ Finset.range m, ∑ j ∈ Finset.range n, A i j

/-- BinaryMFPenalty.error (lines 148-165), returning
(error, rec_error, reg_error). -/
def errorTriple (m n k : ℕ) (W X U V : Mat) (reg : ℚ) : ℚ × ℚ × ℚ :=
  let Xpd := mmul k U (transpose V)
  let recErr := 1 / 2 * matSum m n (multiply W (power (msub X Xpd) 2))
  let regErr := 1 / 2 * matSum m k (power (msub (power U 2) U) 2)
    + 1 / 2 * matSum n k (power (msub (power V 2) V) 2)
  (recErr + reg * regErr, recErr, regErr)

/-- The convergence quantity of one _fit iteration (line 84):
diff = abs(reg_error_old - reg_error_new), where the old value is the penalty
error before the update and the new one the penalty error after it. -/
def fitStepDiff (m n k : ℕ) (W X U V : Mat) (reg : ℚ) : ℚ :=
  let UV := update m n k W X U V reg
  |(errorTriple m n k W X U V reg).2.2 - (errorTriple m n k W X UV.1 UV.2 reg).2.2|

/-- Spec-side formula for the reconstruction term as literally written in the
claim: 0.5 times the squared Frobenius norm of the Hadamard product
W with (X - U V^T), squaring the weight together with the residual. -/
def specRecError (m n k : ℕ) (W X U V : Mat) : ℚ :=
  1 / 2 * matSum m n (power (multiply W (msub X (mmul k U (transpose V)))) 2)

/-- C3 counterexample: with W = [[1/2]], X = [[1]] and U = V = [[0]], the code
computes the reconstruction error 0.5 * sum(W * (X - U V^T)^2) = 1/4, whereas
the claim's formula 0.5 * norm(W hadamard (X - U V^T))^2 evaluates to 1/8:
the two disagree whenever W has entries outside 0 and 1. -/
theorem C3_reconstruction_weighting_counterexample :
    (errorTriple 1 1 1 (fun _ _ => 1 / 2) (fun _ _ => 1) (fun _ _ => 0) (fun _ _ => 0) 1).2.1
      = 1 / 4 ∧
    specRecError 1 1 1 (fun _ _ => 1 / 2) (fun _ _ => 1) (fun _ _ => 0) (fun _ _ => 0)
      = 1 / 8 ∧
    specRecError 1 1 1 (fun _ _ => 1 / 2) (fun _ _ => 1) (fun _ _ => 0) (fun _ _ => 0)
      < (errorTriple 1 1 1 (fun _ _ => 1 / 2) (fun _ _ => 1) (fun _ _ => 0)
          (fun _ _ => 0) 1).2.1 := by
  norm_num [errorTriple, specRecError, matSum, multiply, power, msub, mmul, transpose]

/-- C3 amended: the error computation returns 0.5 times the sum of
W i j * (X - U V^T) i j squared for the reconstruction component (the weight
applied linearly to the squared residuals, which coincides with the norm of
the Hadamard product only for binary W), 0.5 Sum (U^2 - U)^2 plus
0.5 Sum (V^2 - V)^2 for the penalty component, reconstruction plus reg times
penalty as the total, and the iteration's convergence quantity diff is the
absolute difference of the penalty-only errors before and after the update,
not of the total or reconstruction errors. -/
theorem C3_error_components_amended (m n k : ℕ) (W X U V : Mat) (reg : ℚ) :
    (errorTriple m n k W X U V reg).2.1 =
      1 / 2 * ∑ i ∈ Finset.range m, ∑ j ∈ Finset.range n,
        W i j * (X i j - ∑ c ∈ Finset.range k, U i c * V j c) ^ 2 ∧
    (errorTriple m n k W X U V reg).2.2 =
      1 / 2 * (∑ i ∈ Finset.range m, ∑ c ∈ Finset.range k, (U i c ^ 2 - U i c) ^ 2)
      + 1 / 2 * (∑ j ∈ Finset.range n, ∑ c ∈ Finset.range k, (V j c ^ 2 - V j c) ^ 2) ∧
    (errorTriple m n k W X U V reg).1 =
      (errorTriple m n k W X U V reg).2.1 + reg * (errorTriple m n k W X U V reg).2.2 ∧
    fitStepDiff m n k W X U V reg =
      |(errorTriple m n k W X U V reg).2.2 -
        (errorTriple m n k W X (update m n k W X U V reg).1
          (update m n k W X U V reg).2 reg).2.2| :=
  ⟨rfl, rfl, rfl, rfl⟩

theorem floorZeros_ne_zero (A : Mat) (i j : ℕ) : floorZeros A i j ≠ 0 := by
  unfold floorZeros
  split
  · norm_num [eps64]
  · assumption

theorem floorZeros_pos (A : Mat) (hA : ∀ i j, 0 ≤ A i j) (i j : ℕ) :
    0 < floorZeros A i j := by
  unfold floorZeros
  split
  · norm_num [eps64]
  · exact lt_of_le_of_ne (hA i j) (Ne.symm (by assumption))

/-- C6: in both halves of the multiplicative update, every zero entry of the
denominator matrix is replaced by machine epsilon before the elementwise
division, the divisor is therefore never zero (the division cannot raise), and
the factor entry is still updated as old entry times numerator over the
epsilon-floored denominator — the update is not skipped. -/
theorem C6_denominator_epsilon_floor (m n k : ℕ) (W X U V : Mat) (reg : ℚ) (i j : ℕ) :
    floorZeros (updateV_denom m k W X U V reg) i j ≠ 0 ∧
    (updateV_denom m k W X U V reg i j = 0 →
      floorZeros (updateV_denom m k W X U V reg) i j = eps64) ∧
    (update m n k W X U V reg).2 i j =
      V i j * (updateV_num m W X U V reg i j /
        floorZeros (updateV_denom m k W X U V reg) i j) ∧
    floorZeros (updateU_denom n k W X U (update m n k W X U V reg).2 reg) i j ≠ 0 ∧
    (updateU_denom n k W X U (update m n k W X U V reg).2 reg i j = 0 →
      floorZeros (updateU_denom n k W X U (update m n k W X U V reg).2 reg) i j = eps64) ∧
    (update m n k W X U V reg).1 i j =
      U i j * (updateU_num n W X U (update m n k W X U V reg).2 reg i j /
        floorZeros (updateU_denom n k W X U (update m n k W X U V reg).2 reg) i j) := by
  refine ⟨floorZeros_ne_zero _ i j, ?_, rfl, floorZeros_ne_zero _ i j, ?_, rfl⟩
  · intro h
    unfold floorZeros
    rw [if_pos h]
  · intro h
    unfold floorZeros
    rw [if_pos h]

/-- C6 witness: with every input zero and reg = 1 the V denominator vanishes
at (0, 0), is floored to machine epsilon, and the floored divisor is nonzero. -/
theorem C6_denominator_epsilon_floor_witness :
    updateV_denom 1 1 (fun _ _ => 0) (fun _ _ => 0) (fun _ _ => 0) (fun _ _ => 0) 1 0 0 = 0 ∧
    floorZeros (updateV_denom 1 1 (fun _ _ => 0) (fun _ _ => 0) (fun _ _ => 0)
      (fun _ _ => 0) 1) 0 0 = eps64 ∧
    floorZeros (updateV_denom 1 1 (fun _ _ => 0) (fun _ _ => 0) (fun _ _ => 0)
      (fun _ _ => 0) 1) 0 0 ≠ 0 := by
  have hz : updateV_denom 1 1 (fun _ _ => 0) (fun _ _ => 0) (fun _ _ => 0)
      (fun _ _ => 0) 1 0 0 = 0 := by
    norm_num [updateV_denom, madd, smul, power, mmul, multiply, transpose]
  obtain ⟨ha, hb, _, _, _, _⟩ :=
    C6_denominator_epsilon_floor 1 1 1 (fun _ _ => 0) (fun _ _ => 0) (fun _ _ => 0)
      (fun _ _ => 0) 1 0 0
  exact ⟨hz, hb hz, ha⟩

theorem mmul_nonneg {d : ℕ} {A B : Mat} (hA : ∀ i j, 0 ≤ A i j) (hB : ∀ i j, 0 ≤ B i j) :
    ∀ i j, 0 ≤ mmul d A B i j := fun i j =>
  Finset.sum_nonneg fun c _ => mul_nonneg (hA i c) (hB c j)

theorem updateV_num_nonneg (m : ℕ) {W X U V : Mat} {reg : ℚ}
    (hW : ∀ i j, 0 ≤ W i j) (hX : ∀ i j, 0 ≤ X i j) (hU : ∀ i j, 0 ≤ U i j)
    (hV : ∀ i j, 0 ≤ V i j) (hreg : 0 ≤ reg) :
    ∀ i j, 0 ≤ updateV_num m W X U V reg i j := by
  intro i j
  unfold updateV_num madd smul power
  have h1 := mmul_nonneg (d := m)
    (fun i j => mul_nonneg (hW j i) (hX j i)) hU i j
  refine add_nonneg ?_ ?_
  · exact h1
  · exact mul_nonneg (by positivity) (pow_nonneg (hV i j) 2)

theorem updateV_denom_nonneg (m k : ℕ) {W X U V : Mat} {reg : ℚ}
    (hW : ∀ i j, 0 ≤ W i j) (hU : ∀ i j, 0 ≤ U i j)
    (hV : ∀ i j, 0 ≤ V i j) (hreg : 0 ≤ reg) :
    ∀ i j, 0 ≤ updateV_denom m k W X U V reg i j := by
  intro i j
  unfold updateV_denom madd smul power
  have hprod : ∀ i j, (0 : ℚ) ≤ mmul k U (transpose V) i j :=
    mmul_nonneg hU (fun i j => hV j i)
  have h1 := mmul_nonneg (d := m)
    (fun i j => mul_nonneg (hW j i) (hprod j i)) hU i j
  refine add_nonneg (add_nonneg ?_ ?_) ?_
  · exact h1
  · exact mul_nonneg (by positivity) (pow_nonneg (hV i j) 3)
  · exact mul_nonneg hreg (hV i j)

theorem updateV_nonneg (m k : ℕ) {W X U V : Mat} {reg : ℚ}
    (hW : ∀ i j, 0 ≤ W i j) (hX : ∀ i j, 0 ≤ X i j) (hU : ∀ i j, 0 ≤ U i j)
    (hV : ∀ i j, 0 ≤ V i j) (hreg : 0 ≤ reg) :
    ∀ i j, 0 ≤ updateV m k W X U V reg i j := by
  intro i j
  unfold updateV multiply mdiv
  refine mul_nonneg (hV i j) (div_nonneg ?_ ?_)
  · exact updateV_num_nonneg m hW hX hU hV hreg i j
  · exact le_of_lt (floorZeros_pos _ (updateV_denom_nonneg m k hW hU hV hreg) i j)

theorem updateU_num_nonneg (n : ℕ) {W X U V : Mat} {reg : ℚ}
    (hW : ∀ i j, 0 ≤ W i j) (hX : ∀ i j, 0 ≤ X i j) (hU : ∀ i j, 0 ≤ U i j)
    (hV : ∀ i j, 0 ≤ V i j) (hreg : 0 ≤ reg) :
    ∀ i j, 0 ≤ updateU_num n W X U V reg i j := by
  intro i j
  unfold updateU_num madd smul power
  refine add_nonneg ?_ ?_
  · exact mmul_nonneg (d := n) (fun i j => mul_nonneg (hW i j) (hX i j)) hV i j
  · exact mul_nonneg (by positivity) (pow_nonneg (hU i j) 2)

theorem updateU_denom_nonneg (n k : ℕ) {W X U V : Mat} {reg : ℚ}
    (hW : ∀ i j, 0 ≤ W i j) (hU : ∀ i j, 0 ≤ U i j)
    (hV : ∀ i j, 0 ≤ V i j) (hreg : 0 ≤ reg) :
    ∀ i j, 0 ≤ updateU_denom n k W X U V reg i j := by
  intro i j
  unfold updateU_denom madd smul power
  have hprod : ∀ i j, (0 : ℚ) ≤ mmul k U (transpose V) i j :=
    mmul_nonneg hU (fun i j => hV j i)
  refine add_nonneg (add_nonneg ?_ ?_) ?_
  · exact mmul_nonneg (d := n) (fun i j => mul_nonneg (hW i j) (hprod i j)) hV i j
  · exact mul_nonneg (by positivity) (pow_nonneg (hU i j) 3)
  · exact mul_nonneg hreg (hU i j)

/-- C7: if all entries of X, W and the current U and V are nonnegative and the
regularization weight is positive, then after the multiplicative update all
entries of the new U and V are nonnegative: numerators and denominators are
sums of products of nonnegative terms and the epsilon floor keeps every
divisor strictly positive. -/
theorem C7_nonnegativity_preserved (m n k : ℕ) (W X U V : Mat) (reg : ℚ)
    (hW : ∀ i j, 0 ≤ W i j) (hX : ∀ i j, 0 ≤ X i j) (hU : ∀ i j, 0 ≤ U i j)
    (hV : ∀ i j, 0 ≤ V i j) (hreg : 0 < reg) :
    (∀ i j, 0 ≤ (update m n k W X U V reg).1 i j) ∧
    (∀ i j, 0 ≤ (update m n k W X U V reg).2 i j) := by
  have hreg' : 0 ≤ reg := le_of_lt hreg
  have hV' : ∀ i j, 0 ≤ updateV m k W X U V reg i j :=
    updateV_nonneg m k hW hX hU hV hreg'
  constructor
  · intro i j
    show 0 ≤ updateU n k W X U (updateV m k W X U V reg) reg i j
    unfold updateU multiply mdiv
    refine mul_nonneg (hU i j) (div_nonneg ?_ ?_)
    · exact updateU_num_nonneg n hW hX hU hV' hreg' i j
    · exact le_of_lt (floorZeros_pos _ (updateU_denom_nonneg n k hW hU hV' hreg') i j)
  · exact hV'

/-- C7 witness: one update of the all-ones 1 by 1 system with reg = 2 keeps
both factors nonnegative. -/
theorem C7_nonnegativity_preserved_witness :
    0 ≤ (update 1 1 1 (fun _ _ => 1) (fun _ _ => 1) (fun _ _ => 1) (fun _ _ => 1) 2).1 0 0 ∧
    0 ≤ (update 1 1 1 (fun _ _ => 1) (fun _ _ => 1) (fun _ _ => 1) (fun _ _ => 1) 2).2 0 0 := by
  have h := C7_nonnegativity_preserved 1 1 1 (fun _ _ => 1) (fun _ _ => 1) (fun _ _ => 1)
    (fun _ _ => 1) 2 (fun _ _ => zero_le_one) (fun _ _ => zero_le_one)
    (fun _ _ => zero_le_one) (fun _ _ => zero_le_one) (by norm_num)
  exact ⟨h.1 0 0, h.2 0 0⟩

end BMFP

namespace BaseModel

/-- The seed-related state of a model: the seed attribute and the seed the
random generator was last constructed from (none when neither exists). -/
structure SeedState where
  seed : Option ℕ
  rngSeed : Option ℕ
deriving DecidableEq

/-- Model of the seed branch of BaseModel.check_params (BaseModel.py lines
39-51). The kw argument is none when the key seed is absent from kwargs,
some none when it is present with the value None, and some (some s) for an
explicit integer seed; now is the wall clock int(time.time()) passed in as an
explicit oracle input. -/
def checkParamsSeed (st : SeedState) (kw : Option (Option ℕ)) (now : ℕ) : SeedState :=
  match kw with
  | none => st
  | some se =>
    match se, st.seed with
    | none, none => ⟨some now, some now⟩
    | none, some _ => st
    | some s, _ => ⟨some s, some s⟩

/-- C10: when check_params receives the seed key with the value None on a
model without a seed attribute, the generator is seeded from the wall clock,
so runs started at different times use different random states; with an
explicit integer seed the outcome is independent of the clock, so only then
is initialization reproducible. -/
theorem C10_wall_clock_seeding (r : Option ℕ) :
    (∀ t, checkParamsSeed ⟨none, r⟩ (some none) t = ⟨some t, some t⟩) ∧
    (∀ t1 t2, t1 ≠ t2 →
      (checkParamsSeed ⟨none, r⟩ (some none) t1).rngSeed ≠
        (checkParamsSeed ⟨none, r⟩ (some none) t2).rngSeed) ∧
    (∀ (st : SeedState) (s0 t1 t2 : ℕ),
      checkParamsSeed st (some (some s0)) t1 = checkParamsSeed st (some (some s0)) t2) := by
  refine ⟨fun t => rfl, ?_, ?_⟩
  · intro t1 t2 hne h
    simp [checkParamsSeed] at h
    exact hne h
  · intro st s0 t1 t2
    obtain ⟨se, rs⟩ := st
    cases se <;> rfl

/-- C10 witness: a run at time 5 is seeded with 5, a run at time 6 differs,
and an explicit seed 42 gives identical states at both times. -/
theorem C10_wall_clock_seeding_witness :
    checkParamsSeed ⟨none, none⟩ (some none) 5 = ⟨some 5, some 5⟩ ∧
    (checkParamsSeed ⟨none, none⟩ (some none) 5).rngSeed ≠
      (checkParamsSeed ⟨none, none⟩ (some none) 6).rngSeed ∧
    checkParamsSeed ⟨some 3, some 3⟩ (some (some 42)) 5 =
      checkParamsSeed ⟨some 3, some 3⟩ (some (some 42)) 6 := by
  obtain ⟨h1, h2, h3⟩ := C10_wall_clock_seeding none
  exact ⟨h1 5, h2 5 6 (by norm_num), h3 ⟨some 3, some 3⟩ 42 5 6⟩

end BaseModel
